import Mathlib

set_option maxRecDepth 8000

/-!
Shallow embedding of `src/main.py` (FixMyHomeWork): a batch tool that
extracts a student name from each Word file name, looks the name up in a
roster, and renames the file to a normalized pattern.  Strings are modelled
by Lean `String` (a list of unicode characters), the directory by the list
of file names it contains, and the external rename operation's failure
channel by an oracle `fault : String → Option String`.
-/

namespace FixMyHomework

/-- Python whitespace (`str.strip`, regex `\s`): space, tab, newline,
carriage return, vertical tab, form feed (by code point). -/
def isPySpace (c : Char) : Bool :=
  c.toNat == 32 || c.toNat == 9 || c.toNat == 10 || c.toNat == 13 ||
    c.toNat == 11 || c.toNat == 12

/-- Python `str.strip()` on the underlying character list. -/
def trimList (l : List Char) : List Char :=
  ((l.dropWhile isPySpace).reverse.dropWhile isPySpace).reverse

/-- Python `str.strip()`. -/
def pyStrip (s : String) : String := ⟨trimList s.data⟩

/-- Python substring test `a in b` on character lists. -/
def listInfix (a b : List Char) : Bool :=
  (List.range (b.length + 1)).any (fun i => a.isPrefixOf (b.drop i))

/-- Python substring test `a in b`. -/
def strInfix (a b : String) : Bool := listInfix a.data b.data

/-- The illegal filename characters of `clean_filename` (line 21). -/
def illegalChars : List Char := ['<', '>', ':', '"', '/', '\\', '|', '?', '*']

def cleanChar (c : Char) : Char := if illegalChars.contains c then '_' else c

/-- `clean_filename` (lines 18-24): replace each illegal character by `_`,
then strip.  The sequential single-character `str.replace` calls amount to a
per-character map because `_` is not itself an illegal character. -/
def clean_filename (s : String) : String := pyStrip ⟨s.data.map cleanChar⟩

/-- The character class `[一-鿿]` (CJK ideographs). -/
def isCJK (c : Char) : Bool := decide (0x4e00 ≤ c.toNat) && decide (c.toNat ≤ 0x9fff)

/-- `re.sub(r'[^一-鿿]', '', s)` (lines 108, 112). -/
def cjkOnly (s : String) : String := ⟨s.data.filter isCJK⟩

/-- Index from the start of the last `.` in `l`, if any (Python `str.rfind('.')`). -/
def lastDotIdx (l : List Char) : Option Nat :=
  match l.reverse.findIdx? (· == '.') with
  | some j => some (l.length - 1 - j)
  | none => none

/-- `os.path.splitext` on a bare file name (line 30): split at the last dot
unless every character before it is a dot. -/
def splitext (s : String) : String × String :=
  match lastDotIdx s.data with
  | none => (s, "")
  | some i =>
    if (s.data.take i).any (fun c => !(c == '.')) then (⟨s.data.take i⟩, ⟨s.data.drop i⟩)
    else (s, "")

/-- `pathlib.PurePath.suffix` (line 187): the extension `name[i:]` when the
last dot sits at `0 < i < len(name) - 1`, else the empty string. -/
def pathSuffix (s : String) : String :=
  match lastDotIdx s.data with
  | none => ""
  | some i =>
    if decide (0 < i) && decide (i < s.data.length - 1) then ⟨s.data.drop i⟩ else ""

/-! ### A small backtracking regex engine

The seven extraction patterns of `extract_name_from_filename` use anchors,
character classes, greedy `+`/`*`/`{2,4}`, the lazy `.*?`, alternation, one
capture group, and one lookahead.  `mresF` enumerates every prefix match in
Python's backtracking order, so its head is exactly the match Python finds;
`pyFindall` reproduces `re.findall` scanning. -/

inductive Re where
  | eps : Re
  | cls : (Char → Bool) → Re
  | seq : Re → Re → Re
  | alt : Re → Re → Re
  | star : Re → Bool → Re
  | group : Re → Re
  | look : Re → Re

/-- All prefix matches of `re` against `s` as `(remaining suffix, capture of
group 1)`, in Python's backtracking order (greedy repetition tries the longer
continuation first, lazy the shorter; alternation tries the left branch
first).  The `Bool` on `star` selects the lazy variant.  Fuel-indexed for
structural recursion; every repetition step must consume at least one
character, as in Python. -/
def mresF : Nat → Re → List Char → List (List Char × Option (List Char))
  | 0, _, _ => []
  | fuel+1, re, s =>
    match re with
    | .eps => [(s, none)]
    | .cls p =>
      match s with
      | [] => []
      | c :: rest => if p c then [(rest, none)] else []
    | .seq a b =>
      (mresF fuel a s).flatMap (fun pa =>
        (mresF fuel b pa.1).map (fun pb => (pb.1, pa.2 <|> pb.2)))
    | .alt a b => mresF fuel a s ++ mresF fuel b s
    | .star r lz =>
      let step := (mresF fuel r s).filter (fun pa => pa.1.length < s.length)
      let iter := step.flatMap (fun pa =>
        (mresF fuel (.star r lz) pa.1).map (fun pb => (pb.1, pa.2 <|> pb.2)))
      if lz then (s, none) :: iter else iter ++ [(s, none)]
    | .group r =>
      (mresF fuel r s).map (fun pa => (pa.1, some (s.take (s.length - pa.1.length))))
    | .look r => if (mresF fuel r s).isEmpty then [] else [(s, none)]

/-- Fuel that dominates the recursion depth of `mresF` on our patterns. -/
def reFuel (s : List Char) : Nat := 2 * s.length + 64

/-- The first match of `re` at the start of `s`, Python style. -/
def matchHere (re : Re) (s : List Char) : Option (List Char × Option (List Char)) :=
  (mresF (reFuel s) re s).head?

/-- Unanchored `re.findall` scan: emit the group-1 capture when `hasGroup`
(Python returns the group when the pattern has exactly one), otherwise the
whole match; resume after a nonempty match, advance one character after a
failure or an empty match. -/
def findallStep (re : Re) (hasGroup : Bool) (recurse : List Char → List (List Char))
    (s : List Char) : List (List Char) :=
  match matchHere re s with
  | none =>
    match s with
    | [] => []
    | _ :: t => recurse t
  | some (rest, cap) =>
    if s.length - rest.length = 0 then
      match s with
      | [] => [if hasGroup then cap.getD [] else s.take (s.length - rest.length)]
      | _ :: t => (if hasGroup then cap.getD [] else s.take (s.length - rest.length)) ::
          recurse t
    else (if hasGroup then cap.getD [] else s.take (s.length - rest.length)) :: recurse rest

def findallAux (re : Re) (hasGroup : Bool) : Nat → List Char → List (List Char)
  | 0, _ => []
  | fuel+1, s => findallStep re hasGroup (findallAux re hasGroup fuel) s

/-- `re.findall(pattern, s)`.  A pattern anchored by `^` can only match at
position 0 (no MULTILINE flag is set), so it yields at most one hit. -/
def pyFindall (anchored : Bool) (re : Re) (hasGroup : Bool) (s : List Char) : List (List Char) :=
  if anchored then
    match matchHere re s with
    | none => []
    | some (rest, cap) =>
      [if hasGroup then cap.getD [] else s.take (s.length - rest.length)]
  else findallAux re hasGroup (s.length + 1) s

/-! Combinators for the concrete patterns. -/

def lit (c : Char) : Re := .cls (· == c)

/-- Greedy `r+`. -/
def plusRe (r : Re) : Re := .seq r (.star r false)

/-- Greedy `r?`. -/
def optRe (r : Re) : Re := .alt r .eps

/-- Greedy `r{2,4}`: tries 4, then 3, then 2 repetitions. -/
def rep24 (r : Re) : Re := .seq r (.seq r (optRe (.seq r (optRe r))))

/-- A two-character literal. -/
def str2 (a b : Char) : Re := .seq (lit a) (lit b)

def seqList (l : List Re) : Re := l.foldr .seq .eps

/-- Regex `\d` (by code point: the ASCII digits). -/
def isPyDigit (c : Char) : Bool := decide (48 ≤ c.toNat) && decide (c.toNat ≤ 57)

/-- `[^\s\d]`. -/
def notSD (c : Char) : Bool := !(isPySpace c) && !(isPyDigit c)

/-- `[^\d\s+]`. -/
def notSDplus (c : Char) : Bool := notSD c && !(c == '+')

/-- `.` (anything but a newline). -/
def anyChar (c : Char) : Bool := !(c == '\n')

def dC : Re := .cls isPyDigit
def sC : Re := .cls isPySpace

/-- Pattern 1, `^\d+\s+([^\s\d]+)\s+` (line 38). -/
def reP1 : Re := seqList [plusRe dC, plusRe sC, .group (plusRe (.cls notSD)), plusRe sC]

/-- Pattern 2, `^\d+\s+.*?([^\d\s]{2,4})(?:\d+|第)` (line 41). -/
def reP2 : Re :=
  seqList [plusRe dC, plusRe sC, .star (.cls anyChar) true,
    .group (rep24 (.cls notSD)), .alt (plusRe dC) (lit '第')]

/-- Pattern 3, `^\d+\s+.*?班\s+([^\s\d]+)\s+\d+` (line 44). -/
def reP3 : Re :=
  seqList [plusRe dC, plusRe sC, .star (.cls anyChar) true, lit '班', plusRe sC,
    .group (plusRe (.cls notSD)), plusRe sC, plusRe dC]

/-- Pattern 4, `^\d+([^\d\s+]{2,4})` (line 47). -/
def reP4 : Re := seqList [plusRe dC, .group (rep24 (.cls notSDplus))]

/-- Pattern 5, `^([^\d\s]{2,4})\s*\+?\s*\d+` (line 50). -/
def reP5 : Re :=
  seqList [.group (rep24 (.cls notSD)), .star sC false, optRe (lit '+'),
    .star sC false, plusRe dC]

/-- Pattern 6, `班([^\d\s]{2,4})(?:\d+|\s|第)` (line 53). -/
def reP6 : Re :=
  seqList [lit '班', .group (rep24 (.cls notSD)), .alt (plusRe dC) (.alt sC (lit '第'))]

/-- Pattern 7, `([^\d\s]{2,4})(?=\s|\d|第|实验|\+)` (line 56). -/
def reP7 : Re :=
  seqList [.group (rep24 (.cls notSD)),
    .look (.alt sC (.alt dC (.alt (lit '第') (.alt (str2 '实' '验') (lit '+')))))]

/-- Fallback pattern, `[一-鿿]{2,4}` (line 75); it has no group, so
`findall` returns whole matches. -/
def reCJK : Re := rep24 (.cls isCJK)

/-- The ordered pattern list of lines 36-57, with their anchoredness. -/
def patternDefs : List (Bool × Re) :=
  [(true, reP1), (true, reP2), (true, reP3), (true, reP4), (true, reP5),
   (false, reP6), (false, reP7)]

/-- `re.match(r'^\d+$', s)` as a Boolean (line 66). -/
def isAllDigits (s : String) : Bool := !s.data.isEmpty && s.data.all isPyDigit

/-- Exact-exclusion list of the pattern branch (lines 67-68). -/
def excl1 : List String :=
  ["级计算机工程专升本", "计算机工程专升本", "实验", "课程", "报告", "电子版", "云计算", "新版"]

/-- Containment stop-words of the pattern branch (line 70). -/
def stopFrag1 : List String := ["级", "班", "实验", "报告", "课程", "计算机", "工程", "专升本"]

/-- Exact-exclusion list of the fallback branch (line 78). -/
def excl2 : List String :=
  ["级计算机工程专升本", "计算机工程专升本", "实验报告", "课程实验", "电子版", "云计算", "新版"]

/-- Containment stop-words of the fallback branch (line 82). -/
def stopFrag2 : List String := ["级", "班", "实验", "报告", "课程", "计算机", "工程"]

/-- The name filter of the pattern branch (lines 65-70). -/
def filterOk1 (s : String) : Bool :=
  decide (2 ≤ s.length) && !(isAllDigits s) && !(excl1.contains s) &&
    !(stopFrag1.any (fun w => strInfix w s))

/-- The name filter of the fallback branch (lines 80-82). -/
def filterOk2 (s : String) : Bool :=
  (decide (2 ≤ s.length) && decide (s.length ≤ 4)) && !(excl2.contains s) &&
    !(stopFrag2.any (fun w => strInfix w s))

/-- The pattern loop of lines 59-72: for each pattern in order, return the
first stripped `findall` hit passing the name filter. -/
def firstPat : List (Bool × Re) → List Char → Option String
  | [], _ => none
  | (anch, re) :: rest, np =>
    match ((pyFindall anch re true np).map (fun l => pyStrip ⟨l⟩)).find? filterOk1 with
    | some n => some n
    | none => firstPat rest np

/-- `extract_name_from_filename` (lines 27-87). -/
def extract_name_from_filename (filename : String) : Option String :=
  let np := (splitext filename).1.data
  match firstPat patternDefs np with
  | some n => some n
  | none =>
    ((pyFindall false reCJK false np).map (fun l => (⟨l⟩ : String))).find? filterOk2

/-! ### Matcher -/

/-- One roster row: the `姓名` (name) and `学号` (id) columns of the loaded
spreadsheet. -/
structure StudentRecord where
  name : String
  id : String
deriving DecidableEq

/-- The exact-match predicate of lines 96-99. -/
def exactP (name : String) (r : StudentRecord) : Bool := pyStrip r.name == name

/-- The bidirectional-containment predicate of lines 102-105. -/
def fuzzyP (name : String) (r : StudentRecord) : Bool :=
  strInfix name (pyStrip r.name) || strInfix (pyStrip r.name) name

/-- The cleaned-CJK predicate of lines 110-114. -/
def cleanedP (cleaned : String) (r : StudentRecord) : Bool :=
  cleaned == cjkOnly (pyStrip r.name)

/-- `find_student_info` (lines 90-116): exact match over all rows, then
bidirectional containment over all rows, then equality of the CJK-only
cleanings over all rows; the first matching row wins. -/
def find_student_info (name0 : String) (df : List StudentRecord) : Option (String × String) :=
  let name := pyStrip name0
  match df.find? (exactP name) with
  | some r => some (pyStrip r.name, pyStrip r.id)
  | none =>
    match df.find? (fuzzyP name) with
    | some r => some (pyStrip r.name, pyStrip r.id)
    | none =>
      let cleaned := cjkOnly name
      if cleaned != "" && cleaned != name then
        match df.find? (cleanedP cleaned) with
        | some r => some (pyStrip r.name, pyStrip r.id)
        | none => none
      else none

/-! ### Rename planner and batch loop -/

/-- One entry of the `results` list (keys `original`/`new`/`status`). -/
structure Outcome where
  original : String
  new : String
  status : String
deriving DecidableEq

/-- The loop state of lines 157-233: the folder's current file names, the
accumulated `results`, and `success_count`. -/
structure BatchState where
  existing : List String
  results : List Outcome
  success_count : Nat
deriving DecidableEq

/-- The target file name of lines 187-188:
`clean_filename(f"{id} {name} 实验（训）报告【电子版】-{fmt}{suffix}")`. -/
def targetName (sid sname fmt suffix : String) : String :=
  clean_filename (sid ++ " " ++ sname ++ " 实验（训）报告【电子版】-" ++ fmt ++ suffix)

def natReprAux : Nat → Nat → List Char
  | 0, _ => []
  | fuel+1, n =>
    if n < 10 then [Nat.digitChar n]
    else natReprAux fuel (n / 10) ++ [Nat.digitChar (n % 10)]

/-- Decimal rendering of a counter (Python `str(counter)`). -/
def natRepr (n : Nat) : String := ⟨natReprAux (n + 1) n⟩

/-- The numbered collision name of lines 198-199:
`clean_filename(f"{id} {name} 实验（训）报告【电子版】-{fmt}({k})") + suffix`. -/
def numberedName (sid sname fmt suffix : String) (k : Nat) : String :=
  clean_filename (sid ++ " " ++ sname ++ " 实验（训）报告【电子版】-" ++ fmt ++
    "(" ++ natRepr k ++ ")") ++ suffix

/-- Search for the first counter from `k` on whose name is unused.  The fuel
`existing.length + 1` always suffices because the numbered names are pairwise
distinct (see `numberedResolve_eq`). -/
def findFreeAux (existing : List String) (mk : Nat → String) : Nat → Nat → String
  | k, 0 => mk k
  | k, fuel+1 => if existing.contains (mk k) then findFreeAux existing mk (k + 1) fuel else mk k

/-- The `while final_path.exists()` collision loop of lines 196-201: the first
numbered name, counting from 1, that is not already used. -/
def numberedResolve (existing : List String) (sid sname fmt suffix : String) : String :=
  findFreeAux existing (numberedName sid sname fmt suffix) 1 (existing.length + 1)

/-- The unmatched-roster message of line 182. -/
def noMatchMsg (extracted : String) : String :=
  "未找到匹配的学生信息 (提取的姓名: " ++ extracted ++ ")"

def addOutcome (st : BatchState) (o : Outcome) : BatchState :=
  { st with results := st.results ++ [o] }

/-- The rename attempt of lines 211-226: on failure record the error, on
success replace the old name by the new one and count the success. -/
def attemptRename (fault : String → Option String) (st : BatchState) (f final : String) :
    BatchState :=
  match fault f with
  | some err => addOutcome st ⟨f, "未处理", "重命名失败: " ++ err⟩
  | none =>
    { existing := st.existing.erase f ++ [final],
      results := st.results ++ [⟨f, final, "成功"⟩],
      success_count := st.success_count + 1 }

/-- The body of the per-file loop (lines 160-233).  `samefile` between two
paths in the same directory is name equality. -/
def processFile (df : List StudentRecord) (fmt : String) (fault : String → Option String)
    (st : BatchState) (f : String) : BatchState :=
  match extract_name_from_filename f with
  | none => addOutcome st ⟨f, "未处理", "无法提取姓名"⟩
  | some extracted =>
    match find_student_info extracted df with
    | none => addOutcome st ⟨f, "未处理", noMatchMsg extracted⟩
    | some (student_name, student_id) =>
      if student_name == "" || student_id == "" then
        addOutcome st ⟨f, "未处理", noMatchMsg extracted⟩
      else
        let target := targetName student_id student_name fmt (pathSuffix f)
        if st.existing.contains target && target != f then
          attemptRename fault st f
            (numberedResolve st.existing student_id student_name fmt (pathSuffix f))
        else if st.existing.contains target && target == f then
          addOutcome st ⟨f, "未处理", "文件名已经正确，无需修改"⟩
        else
          attemptRename fault st f target

/-- The `for word_file in word_files` loop. -/
def runBatch (df : List StudentRecord) (fmt : String) (fault : String → Option String) :
    BatchState → List String → BatchState
  | st, [] => st
  | st, f :: rest => runBatch df fmt fault (processFile df fmt fault st f) rest

def strEndsWith (s suffix : String) : Bool := suffix.data.isSuffixOf s.data

/-- `word_folder.glob('*.docx')` followed by `glob('*.doc')` (lines 150-152),
over the directory listing `folder`. -/
def wordFiles (folder : List String) : List String :=
  folder.filter (fun f => strEndsWith f ".docx") ++
    folder.filter (fun f => strEndsWith f ".doc")

/-- The two shapes of response dict `rename_word_files` returns: a bare
failure (`success: False`) or a full report (`success: True`). -/
inductive RenameResult where
  | failure : String → RenameResult
  | report : String → List Outcome → Nat → Nat → RenameResult
deriving DecidableEq

/-- The `success` key of the returned dict. -/
def RenameResult.success : RenameResult → Bool
  | .failure _ => false
  | .report _ _ _ _ => true

/-- `rename_word_files` (lines 119-245) from the loop at line 150 on: `df` is
the roster already loaded from the spreadsheet (an external collaborator),
`folder` the directory listing, `fault` the external rename operation's
failure channel (the OS error message when renaming `f` fails, if any). -/
def rename_word_files (df : List StudentRecord) (folder : List String) (name_format : String)
    (fault : String → Option String) : RenameResult :=
  let files := wordFiles folder
  if files.isEmpty then .failure "未找到Word文档"
  else
    let final := runBatch df name_format fault ⟨folder, [], 0⟩ files
    .report ("处理完成！成功重命名 " ++ natRepr final.success_count ++ " 个文件")
      final.results files.length final.success_count

/-! ### The spec's matcher, for comparison

The specification (§4.2) describes a matcher that is driven by a
caller-given ordered list of strategies over extracted name and id
candidates.  `src/main.py` has no such interface; the following definitions
follow the spec's words and serve only to compare the claimed behaviour with
`find_student_info`. -/

/-- Modelled from the spec: one strategy predicate of §4.2 (`exact_name`:
some candidate name equals the record's name; `partial_id`: some candidate id
and the record's id contain one another). -/
def stratPred (strat : String) (names ids : List String) (r : StudentRecord) : Bool :=
  if strat == "exact_name" then names.any (fun n => n == r.name)
  else if strat == "partial_id" then
    ids.any (fun d => strInfix d r.id || strInfix r.id d)
  else false

/-- Modelled from the spec: evaluate the strategies in caller order, each one
exhausted over the roster in order, returning the first match (§4.2). -/
def specMatcher (names ids : List String) (roster : List StudentRecord) :
    List String → Option (String × String)
  | [] => none
  | strat :: rest =>
    match roster.find? (stratPred strat names ids) with
    | some r => some (r.name, r.id)
    | none => specMatcher names ids roster rest

/-! ### Basic lemmas -/

theorem strData_append (a b : String) : (a ++ b).data = a.data ++ b.data := rfl

theorem strLength_append (a b : String) : (a ++ b).length = a.length + b.length := by
  show (a ++ b).data.length = a.data.length + b.data.length
  rw [strData_append, List.length_append]

theorem contains_iff_mem {α : Type} [BEq α] [LawfulBEq α] {l : List α} {a : α} :
    l.contains a = true ↔ a ∈ l := by
  simp [List.contains, List.elem_iff]

theorem contains_eq_false_of_not_mem {α : Type} [BEq α] [LawfulBEq α] {l : List α} {a : α}
    (h : a ∉ l) : l.contains a = false := by
  cases hc : l.contains a with
  | false => rfl
  | true => exact absurd (contains_iff_mem.mp hc) h

/-- `find?` returns the entry at the first index where the predicate holds. -/
theorem find?_eq_of_first {α : Type} {p : α → Bool} (l : List α) (i : Nat) (hi : i < l.length)
    (hp : p (l.get ⟨i, hi⟩) = true)
    (hbef : ∀ j (hj : j < i), p (l.get ⟨j, Nat.lt_trans hj hi⟩) = false) :
    l.find? p = some (l.get ⟨i, hi⟩) := by
  induction l generalizing i with
  | nil => exact absurd hi (Nat.not_lt_zero i)
  | cons x xs ih =>
    cases i with
    | zero =>
      rw [List.find?_cons_of_pos _ (show p x from hp)]
      rfl
    | succ n =>
      have hx : p x = false := hbef 0 (Nat.succ_pos n)
      have hn : n < xs.length := Nat.lt_of_succ_lt_succ hi
      rw [List.find?_cons_of_neg _ (by simp [hx])]
      exact ih n hn hp (fun j hj => hbef (j + 1) (Nat.succ_lt_succ hj))

/-! ### Claim C2: matcher strategy order -/

/-- C2 (amended): `find_student_info` applies a fixed internal ordered
sequence of name-based strategies, each exhausted over all roster rows in
roster order before the next is tried, the first matching row (insertion
order, so duplicates are matched first-found) winning: exact name equality
over all rows, then bidirectional containment over all rows, then — only
when the CJK-only cleaning of the query is nonempty and differs from the
query, i.e. the query contains characters the cleaning removes — cleaned-CJK
equality over all rows.  For a query that the cleaning leaves unchanged the
third phase is skipped entirely: failure of the first two phases then means
no match. -/
theorem C2_amended_strategy_order (name0 : String) (df : List StudentRecord) (i : Nat)
    (hi : i < df.length) :
    (exactP (pyStrip name0) (df.get ⟨i, hi⟩) = true →
      (∀ j (hj : j < i), exactP (pyStrip name0) (df.get ⟨j, Nat.lt_trans hj hi⟩) = false) →
      find_student_info name0 df =
        some (pyStrip (df.get ⟨i, hi⟩).name, pyStrip (df.get ⟨i, hi⟩).id)) ∧
    ((∀ r ∈ df, exactP (pyStrip name0) r = false) →
      fuzzyP (pyStrip name0) (df.get ⟨i, hi⟩) = true →
      (∀ j (hj : j < i), fuzzyP (pyStrip name0) (df.get ⟨j, Nat.lt_trans hj hi⟩) = false) →
      find_student_info name0 df =
        some (pyStrip (df.get ⟨i, hi⟩).name, pyStrip (df.get ⟨i, hi⟩).id)) ∧
    ((∀ r ∈ df, exactP (pyStrip name0) r = false) →
      (∀ r ∈ df, fuzzyP (pyStrip name0) r = false) →
      (cjkOnly (pyStrip name0) != "" && cjkOnly (pyStrip name0) != pyStrip name0) = true →
      cleanedP (cjkOnly (pyStrip name0)) (df.get ⟨i, hi⟩) = true →
      (∀ j (hj : j < i),
        cleanedP (cjkOnly (pyStrip name0)) (df.get ⟨j, Nat.lt_trans hj hi⟩) = false) →
      find_student_info name0 df =
        some (pyStrip (df.get ⟨i, hi⟩).name, pyStrip (df.get ⟨i, hi⟩).id)) ∧
    ((∀ r ∈ df, exactP (pyStrip name0) r = false) →
      (∀ r ∈ df, fuzzyP (pyStrip name0) r = false) →
      (cjkOnly (pyStrip name0) != "" && cjkOnly (pyStrip name0) != pyStrip name0) = false →
      find_student_info name0 df = none) := by
  refine ⟨?_, ?_, ?_, ?_⟩
  · intro hp hbef
    have hf := find?_eq_of_first df i hi hp hbef
    simp only [find_student_info]
    rw [hf]
  · intro hnone hp hbef
    have hf1 : df.find? (exactP (pyStrip name0)) = none :=
      List.find?_eq_none.mpr (fun r hr => by simp [hnone r hr])
    have hf2 := find?_eq_of_first df i hi hp hbef
    simp only [find_student_info]
    rw [hf1, hf2]
  · intro hnone hfz hguard hp hbef
    have hf1 : df.find? (exactP (pyStrip name0)) = none :=
      List.find?_eq_none.mpr (fun r hr => by simp [hnone r hr])
    have hf2 : df.find? (fuzzyP (pyStrip name0)) = none :=
      List.find?_eq_none.mpr (fun r hr => by simp [hfz r hr])
    have hf3 := find?_eq_of_first df i hi hp hbef
    simp only [find_student_info]
    rw [hf1, hf2, if_pos hguard, hf3]
  · intro hnone hfz hguard
    have hf1 : df.find? (exactP (pyStrip name0)) = none :=
      List.find?_eq_none.mpr (fun r hr => by simp [hnone r hr])
    have hf2 : df.find? (fuzzyP (pyStrip name0)) = none :=
      List.find?_eq_none.mpr (fun r hr => by simp [hfz r hr])
    simp only [find_student_info]
    rw [hf1, hf2, if_neg (show ¬_ by rw [hguard]; exact Bool.false_ne_true)]

/-- C2 witness: exact match at row 1 beats an earlier containment-only row;
with no exact match anywhere, the first containment row wins; a query
carrying a non-CJK character reaches the cleaned-CJK phase and matches a
spaced-out roster name; the same spaced-out roster name is NOT matched by a
pure-CJK query, because the cleaning guard skips the third phase. -/
theorem C2_amended_strategy_order_witness :
    find_student_info "王小明" [⟨"王小", "1"⟩, ⟨"王小明", "2"⟩] = some ("王小明", "2") ∧
    find_student_info "王大明" [⟨"李四", "1"⟩, ⟨"王大明甲", "2"⟩] = some ("王大明甲", "2") ∧
    find_student_info "王大明2" [⟨"李四", "1"⟩, ⟨"王 大 明", "2"⟩] = some ("王 大 明", "2") ∧
    find_student_info "王大明" [⟨"王 大 明", "9"⟩] = none :=
  ⟨(C2_amended_strategy_order "王小明" [⟨"王小", "1"⟩, ⟨"王小明", "2"⟩] 1 Nat.one_lt_two).1
      (by decide) (fun j hj => by
        have hj0 : j = 0 := by omega
        subst hj0
        rfl),
    (C2_amended_strategy_order "王大明" [⟨"李四", "1"⟩, ⟨"王大明甲", "2"⟩] 1 Nat.one_lt_two).2.1
      (by decide) (by decide) (fun j hj => by
        have hj0 : j = 0 := by omega
        subst hj0
        rfl),
    (C2_amended_strategy_order "王大明2" [⟨"李四", "1"⟩, ⟨"王 大 明", "2"⟩] 1
        Nat.one_lt_two).2.2.1
      (by decide) (by decide) (by decide) (by decide) (fun j hj => by
        have hj0 : j = 0 := by omega
        subst hj0
        rfl),
    (C2_amended_strategy_order "王大明" [⟨"王 大 明", "9"⟩] 0 Nat.zero_lt_one).2.2.2
      (by decide) (by decide) (by decide)⟩

/-- C2 counterexample: the spec's caller-ordered strategy matcher (with
`["partial_id", "exact_name"]`) would return the `partial_id` record, but the
code's `find_student_info` takes no strategy list and consults only names, so
it returns the exact-name record instead. -/
theorem C2_counterexample :
    specMatcher ["张三"] ["20244105"]
        [⟨"张三", "11111111"⟩, ⟨"李四", "20244105"⟩] ["partial_id", "exact_name"] =
      some ("李四", "20244105") ∧
    find_student_info "张三" [⟨"张三", "11111111"⟩, ⟨"李四", "20244105"⟩] =
      some ("张三", "11111111") ∧
    (("张三", "11111111") : String × String) ≠ ("李四", "20244105") :=
  ⟨rfl, rfl, by decide⟩

/-! ### Claim C3: batch over a directory with no Word files -/

/-- C3 (amended): when the directory holds no `.docx`/`.doc` file, the batch
returns the bare failure dict `{"success": False, "message": "未找到Word文档"}`
— a failure response without totals or outcomes, not a zero-total success
report. -/
theorem C3_amended_no_word_files (df : List StudentRecord) (folder : List String) (fmt : String)
    (fault : String → Option String)
    (h : ∀ f ∈ folder, strEndsWith f ".docx" = false ∧ strEndsWith f ".doc" = false) :
    rename_word_files df folder fmt fault = .failure "未找到Word文档" ∧
    (rename_word_files df folder fmt fault).success = false := by
  have h1 : folder.filter (fun f => strEndsWith f ".docx") = [] :=
    List.filter_eq_nil_iff.mpr (fun a ha => by simp [(h a ha).1])
  have h2 : folder.filter (fun f => strEndsWith f ".doc") = [] :=
    List.filter_eq_nil_iff.mpr (fun a ha => by simp [(h a ha).2])
  have hw : wordFiles folder = [] := by
    unfold wordFiles
    rw [h1, h2]
    rfl
  constructor
  · unfold rename_word_files
    rw [hw]
    rfl
  · unfold rename_word_files
    rw [hw]
    rfl

/-- C3 witness. -/
theorem C3_amended_no_word_files_witness :
    rename_word_files [] ["学生名单.xlsx", "说明.pdf"] "实验九" (fun _ => none) =
      RenameResult.failure "未找到Word文档" :=
  (C3_amended_no_word_files [] ["学生名单.xlsx", "说明.pdf"] "实验九" (fun _ => none)
    (fun f hf => by fin_cases hf <;> exact ⟨rfl, rfl⟩)).1

/-- C3 counterexample: on a folder with no Word files the code returns
`success: False` with a bare message (and no `total`/`results` keys at all),
not the claimed `success: true` report with `total 0`. -/
theorem C3_counterexample :
    (rename_word_files [] ["学生名单.xlsx"] "实验九" (fun _ => none)).success = false ∧
    rename_word_files [] ["学生名单.xlsx"] "实验九" (fun _ => none) =
      RenameResult.failure "未找到Word文档" :=
  ⟨rfl, rfl⟩

/-! ### Batch loop invariants -/

/-- The count of `成功` entries in a result list. -/
def countSuccess (res : List Outcome) : Nat :=
  (res.filter (fun o => o.status == "成功")).length

theorem countSuccess_append (res : List Outcome) (o : Outcome) :
    countSuccess (res ++ [o]) = countSuccess res + (if o.status = "成功" then 1 else 0) := by
  unfold countSuccess
  rw [List.filter_append]
  by_cases h : o.status = "成功"
  · simp [h]
  · simp [h]

theorem noMatchMsg_ne_success (e : String) : noMatchMsg e ≠ "成功" := by
  intro h
  have hl := congrArg String.length h
  rw [noMatchMsg, strLength_append, strLength_append] at hl
  rw [show ("未找到匹配的学生信息 (提取的姓名: " : String).length = 19 from rfl,
    show (")" : String).length = 1 from rfl,
    show ("成功" : String).length = 2 from rfl] at hl
  omega

theorem renameFail_ne_success (e : String) : ("重命名失败: " ++ e) ≠ "成功" := by
  intro h
  have hl := congrArg String.length h
  rw [strLength_append,
    show ("重命名失败: " : String).length = 7 from rfl,
    show ("成功" : String).length = 2 from rfl] at hl
  omega

theorem attemptRename_step (fault : String → Option String) (st : BatchState) (f final : String) :
    ∃ o : Outcome, (attemptRename fault st f final).results = st.results ++ [o] ∧
      (attemptRename fault st f final).success_count =
        st.success_count + (if o.status = "成功" then 1 else 0) := by
  unfold attemptRename
  cases hff : fault f with
  | some err =>
    refine ⟨⟨f, "未处理", "重命名失败: " ++ err⟩, rfl, ?_⟩
    rw [if_neg (renameFail_ne_success err)]
    rfl
  | none =>
    refine ⟨⟨f, final, "成功"⟩, rfl, ?_⟩
    rw [if_pos rfl]

/-- Every iteration of the per-file loop appends exactly one outcome, and
bumps `success_count` exactly when that outcome's status is `成功`. -/
theorem processFile_step (df : List StudentRecord) (fmt : String)
    (fault : String → Option String) (st : BatchState) (f : String) :
    ∃ o : Outcome, (processFile df fmt fault st f).results = st.results ++ [o] ∧
      (processFile df fmt fault st f).success_count =
        st.success_count + (if o.status = "成功" then 1 else 0) := by
  unfold processFile
  split
  · refine ⟨⟨f, "未处理", "无法提取姓名"⟩, rfl, ?_⟩
    rw [if_neg (show ¬("无法提取姓名" : String) = "成功" by decide)]
    rfl
  · rename_i extracted _
    split
    · refine ⟨⟨f, "未处理", noMatchMsg extracted⟩, rfl, ?_⟩
      rw [if_neg (noMatchMsg_ne_success extracted)]
      rfl
    · rename_i sn sid _
      split
      · refine ⟨⟨f, "未处理", noMatchMsg extracted⟩, rfl, ?_⟩
        rw [if_neg (noMatchMsg_ne_success extracted)]
        rfl
      · dsimp only
        split
        · exact attemptRename_step fault st f _
        · split
          · refine ⟨⟨f, "未处理", "文件名已经正确，无需修改"⟩, rfl, ?_⟩
            rw [if_neg (show ¬("文件名已经正确，无需修改" : String) = "成功" by decide)]
            rfl
          · exact attemptRename_step fault st f _

/-- Loop invariant over the remaining file list: one outcome per file, and
`success_count` tracks the count of `成功` outcomes. -/
theorem runBatch_invariant (df : List StudentRecord) (fmt : String)
    (fault : String → Option String) (files : List String) (st : BatchState) :
    (runBatch df fmt fault st files).results.length = st.results.length + files.length ∧
    (runBatch df fmt fault st files).success_count + countSuccess st.results =
      st.success_count + countSuccess (runBatch df fmt fault st files).results := by
  induction files generalizing st with
  | nil => exact ⟨by simp [runBatch], by simp [runBatch]⟩
  | cons f rest ih =>
    obtain ⟨o, ho, hsc⟩ := processFile_step df fmt fault st f
    obtain ⟨ih1, ih2⟩ := ih (processFile df fmt fault st f)
    have hcnt := countSuccess_append st.results o
    constructor
    · show (runBatch df fmt fault (processFile df fmt fault st f) rest).results.length = _
      rw [ih1, ho, List.length_append]
      simp
      omega
    · show (runBatch df fmt fault (processFile df fmt fault st f) rest).success_count + _ =
        st.success_count + _
      rw [ho, hcnt] at ih2
      rw [hsc] at ih2
      show _ = st.success_count +
        countSuccess (runBatch df fmt fault (processFile df fmt fault st f) rest).results
      omega

/-! ### Claim C7: report counting invariants -/

/-- C7: every success report has exactly one outcome per enumerated Word
file (`total` equals the number of outcomes) and `success_count` counts the
`成功` outcomes, hence `success_count ≤ total`. -/
theorem C7_report_counts (df : List StudentRecord) (folder : List String) (fmt : String)
    (fault : String → Option String) (msg : String) (res : List Outcome) (tot sc : Nat)
    (h : rename_word_files df folder fmt fault = .report msg res tot sc) :
    res.length = tot ∧ sc = countSuccess res ∧ sc ≤ tot := by
  unfold rename_word_files at h
  by_cases he : (wordFiles folder).isEmpty = true
  · rw [if_pos he] at h
    exact absurd h (by simp)
  · rw [if_neg he] at h
    obtain ⟨hmsg, hres, htot, hsc⟩ := RenameResult.report.inj h
    obtain ⟨inv1, inv2⟩ :=
      runBatch_invariant df fmt fault (wordFiles folder) ⟨folder, [], 0⟩
    have h0 : countSuccess ([] : List Outcome) = 0 := rfl
    constructor
    · rw [← hres, ← htot, inv1]
      simp
    constructor
    · rw [← hsc, ← hres]
      simp only [h0] at inv2
      omega
    · rw [← hsc, ← htot]
      have hle : countSuccess (runBatch df fmt fault ⟨folder, [], 0⟩ (wordFiles folder)).results ≤
          (runBatch df fmt fault ⟨folder, [], 0⟩ (wordFiles folder)).results.length :=
        List.length_filter_le _ _
      simp only [h0] at inv2
      rw [inv1] at hle
      simp at hle
      omega

/-- C7 witness: a two-file batch, one success and one unmatched file. -/
theorem C7_report_counts_witness :
    ([⟨"王小明1.docx", "202441050610 王小明 实验（训）报告【电子版】-实验九.docx", "成功"⟩,
        ⟨"随便乱写.doc", "未处理", noMatchMsg "随便乱写"⟩] : List Outcome).length = 2 ∧
      1 = countSuccess
        [⟨"王小明1.docx", "202441050610 王小明 实验（训）报告【电子版】-实验九.docx", "成功"⟩,
          ⟨"随便乱写.doc", "未处理", noMatchMsg "随便乱写"⟩] ∧
      1 ≤ 2 :=
  C7_report_counts [⟨"王小明", "202441050610"⟩] ["王小明1.docx", "随便乱写.doc"] "实验九"
    (fun _ => none) _ _ 2 1 rfl

/-! ### Claim C1: target name composition -/

/-- C1 (amended): for every matched record the planned target filename is
`clean_filename("{id} {name} 实验（训）报告【电子版】-{template}{ext}")` — the fixed
`实验（训）报告【电子版】-` infix always present and the id unconditionally
included — and when that name is not already in use the file is renamed to it
with status `成功`. -/
theorem C1_amended_target_composition (df : List StudentRecord) (fmt : String)
    (fault : String → Option String) (st : BatchState) (f n sn sid : String)
    (hx : extract_name_from_filename f = some n)
    (hm : find_student_info n df = some (sn, sid))
    (hsn : sn ≠ "") (hsid : sid ≠ "")
    (hfa : fault f = none)
    (hfree : targetName sid sn fmt (pathSuffix f) ∉ st.existing) :
    processFile df fmt fault st f =
      { existing := st.existing.erase f ++ [targetName sid sn fmt (pathSuffix f)],
        results := st.results ++ [⟨f, targetName sid sn fmt (pathSuffix f), "成功"⟩],
        success_count := st.success_count + 1 } := by
  have hc : (sn == "" || sid == "") = false := by
    rw [beq_eq_false_iff_ne.mpr hsn, beq_eq_false_iff_ne.mpr hsid]
    rfl
  have hcont : st.existing.contains (targetName sid sn fmt (pathSuffix f)) = false :=
    contains_eq_false_of_not_mem hfree
  unfold processFile
  simp only [hx, hm]
  rw [if_neg (show ¬((sn == "" || sid == "") = true) by rw [hc]; exact Bool.false_ne_true)]
  rw [if_neg (show ¬_ by rw [hcont, Bool.false_and]; exact Bool.false_ne_true)]
  rw [if_neg (show ¬_ by rw [hcont, Bool.false_and]; exact Bool.false_ne_true)]
  unfold attemptRename
  rw [hfa]

/-- C1 witness: the spec's own end-to-end example, with the name the code
actually produces. -/
theorem C1_amended_target_composition_witness :
    extract_name_from_filename "202441050610 王小明.docx" = some "王小明" ∧
    find_student_info "王小明" [⟨"王小明", "202441050610"⟩] = some ("王小明", "202441050610") ∧
    targetName "202441050610" "王小明" "实验九" (pathSuffix "202441050610 王小明.docx") =
      "202441050610 王小明 实验（训）报告【电子版】-实验九.docx" ∧
    processFile [⟨"王小明", "202441050610"⟩] "实验九" (fun _ => none)
        ⟨["202441050610 王小明.docx"], [], 0⟩ "202441050610 王小明.docx" =
      { existing := ["202441050610 王小明 实验（训）报告【电子版】-实验九.docx"],
        results := [⟨"202441050610 王小明.docx",
          "202441050610 王小明 实验（训）报告【电子版】-实验九.docx", "成功"⟩],
        success_count := 1 } :=
  ⟨rfl, rfl, rfl, by
    rw [C1_amended_target_composition [⟨"王小明", "202441050610"⟩] "实验九" (fun _ => none)
      ⟨["202441050610 王小明.docx"], [], 0⟩ "202441050610 王小明.docx" "王小明" "王小明"
      "202441050610" rfl rfl (by decide) (by decide) rfl (by decide)]
    rfl⟩

/-- C1 counterexample: on the spec's example input the produced name carries
the fixed `实验（训）报告【电子版】-` infix, so it is not the claimed
`"202441050610 王小明 实验九.docx"`. -/
theorem C1_counterexample :
    rename_word_files [⟨"王小明", "202441050610"⟩] ["202441050610 王小明.docx"] "实验九"
        (fun _ => none) =
      RenameResult.report "处理完成！成功重命名 1 个文件"
        [⟨"202441050610 王小明.docx",
          "202441050610 王小明 实验（训）报告【电子版】-实验九.docx", "成功"⟩] 1 1 ∧
    ("202441050610 王小明 实验（训）报告【电子版】-实验九.docx" : String) ≠
      "202441050610 王小明 实验九.docx" :=
  ⟨rfl, by decide⟩

/-! ### Claim C6: per-file errors never abort the batch -/

/-- C6: every per-file error — extraction failure, no roster match, or a
failing rename operation — is recorded as that file's outcome with an
explanatory status, mutating nothing else, and the loop always appends
exactly one outcome per file, so every remaining file is still processed. -/
theorem C6_per_file_error_contained (df : List StudentRecord) (fmt : String)
    (fault : String → Option String) (st : BatchState) (f : String) (rest : List String) :
    (extract_name_from_filename f = none →
      processFile df fmt fault st f =
        { st with results := st.results ++ [⟨f, "未处理", "无法提取姓名"⟩] }) ∧
    (∀ n, extract_name_from_filename f = some n → find_student_info n df = none →
      processFile df fmt fault st f =
        { st with results := st.results ++ [⟨f, "未处理", noMatchMsg n⟩] }) ∧
    (∀ n sn sid err, extract_name_from_filename f = some n →
      find_student_info n df = some (sn, sid) → sn ≠ "" → sid ≠ "" →
      fault f = some err → targetName sid sn fmt (pathSuffix f) ≠ f →
      processFile df fmt fault st f =
        { st with results := st.results ++ [⟨f, "未处理", "重命名失败: " ++ err⟩] }) ∧
    (runBatch df fmt fault st (f :: rest)).results.length =
      st.results.length + (1 + rest.length) := by
  refine ⟨?_, ?_, ?_, ?_⟩
  · intro hx
    unfold processFile
    simp only [hx]
    rfl
  · intro n hx hm
    unfold processFile
    simp only [hx, hm]
    rfl
  · intro n sn sid err hx hm hsn hsid hff hne
    have hc : (sn == "" || sid == "") = false := by
      rw [beq_eq_false_iff_ne.mpr hsn, beq_eq_false_iff_ne.mpr hsid]
      rfl
    have hbne : (targetName sid sn fmt (pathSuffix f) != f) = true := bne_iff_ne.mpr hne
    unfold processFile
    simp only [hx, hm]
    rw [if_neg (show ¬((sn == "" || sid == "") = true) by rw [hc]; exact Bool.false_ne_true)]
    by_cases hmem :
        st.existing.contains (targetName sid sn fmt (pathSuffix f)) = true
    · rw [if_pos (show _ by rw [hmem, hbne]; rfl)]
      unfold attemptRename
      rw [hff]
      rfl
    · have hmem2 : st.existing.contains (targetName sid sn fmt (pathSuffix f)) = false :=
        Bool.eq_false_iff.mpr hmem
      rw [if_neg (show ¬_ by rw [hmem2, Bool.false_and]; exact Bool.false_ne_true)]
      rw [if_neg (show ¬_ by rw [hmem2, Bool.false_and]; exact Bool.false_ne_true)]
      unfold attemptRename
      rw [hff]
      rfl
  · obtain ⟨o, ho, _⟩ := processFile_step df fmt fault st f
    obtain ⟨l1, _⟩ := runBatch_invariant df fmt fault rest (processFile df fmt fault st f)
    show (runBatch df fmt fault (processFile df fmt fault st f) rest).results.length = _
    rw [l1, ho, List.length_append]
    simp
    omega

/-- C6 witness: three failing files — unextractable, unmatched, and one whose
rename raises — each yields its explanatory outcome; and with another file
behind a failing one, both files get an outcome. -/
theorem C6_per_file_error_contained_witness :
    processFile [⟨"王小明", "202441050610"⟩] "实验九" (fun _ => none) ⟨["123.docx"], [], 0⟩
        "123.docx" =
      { existing := ["123.docx"],
        results := [⟨"123.docx", "未处理", "无法提取姓名"⟩], success_count := 0 } ∧
    processFile [⟨"王小明", "202441050610"⟩] "实验九" (fun _ => none)
        ⟨["随便乱写.docx"], [], 0⟩ "随便乱写.docx" =
      { existing := ["随便乱写.docx"],
        results := [⟨"随便乱写.docx", "未处理", noMatchMsg "随便乱写"⟩], success_count := 0 } ∧
    processFile [⟨"王小明", "202441050610"⟩] "实验九" (fun _ => some "Permission denied")
        ⟨["202441050610 王小明.docx", "王小明2.docx"], [], 0⟩ "202441050610 王小明.docx" =
      { existing := ["202441050610 王小明.docx", "王小明2.docx"],
        results := [⟨"202441050610 王小明.docx", "未处理", "重命名失败: Permission denied"⟩],
        success_count := 0 } ∧
    (runBatch [⟨"王小明", "202441050610"⟩] "实验九" (fun _ => some "Permission denied")
        ⟨["202441050610 王小明.docx", "王小明2.docx"], [], 0⟩
        ["202441050610 王小明.docx", "王小明2.docx"]).results.length = 2 :=
  ⟨(C6_per_file_error_contained [⟨"王小明", "202441050610"⟩] "实验九" (fun _ => none)
      ⟨["123.docx"], [], 0⟩ "123.docx" []).1 rfl,
    (C6_per_file_error_contained [⟨"王小明", "202441050610"⟩] "实验九" (fun _ => none)
      ⟨["随便乱写.docx"], [], 0⟩ "随便乱写.docx" []).2.1 "随便乱写" rfl rfl,
    (C6_per_file_error_contained [⟨"王小明", "202441050610"⟩] "实验九"
      (fun _ => some "Permission denied") ⟨["202441050610 王小明.docx", "王小明2.docx"], [], 0⟩
      "202441050610 王小明.docx" []).2.2.1 "王小明" "王小明" "202441050610" "Permission denied"
      rfl rfl (by decide) (by decide) rfl (by decide),
    (C6_per_file_error_contained [⟨"王小明", "202441050610"⟩] "实验九"
      (fun _ => some "Permission denied") ⟨["202441050610 王小明.docx", "王小明2.docx"], [], 0⟩
      "202441050610 王小明.docx" ["王小明2.docx"]).2.2.2⟩

/-! ### Claim C8: already-correct files are left alone, idempotently -/

/-- C8: when the computed target name equals the file's own name (and the
file exists), the outcome is `文件名已经正确，无需修改` with no rename — the
directory and `success_count` are unchanged — and running the planner again
on the same file yields the same outcome again with no mutation. -/
theorem C8_already_correct_idempotent (df : List StudentRecord) (fmt : String)
    (fault : String → Option String) (st : BatchState) (f n sn sid : String)
    (hx : extract_name_from_filename f = some n)
    (hm : find_student_info n df = some (sn, sid))
    (hsn : sn ≠ "") (hsid : sid ≠ "")
    (heq : targetName sid sn fmt (pathSuffix f) = f)
    (hmem : f ∈ st.existing) :
    processFile df fmt fault st f =
      { st with results := st.results ++ [⟨f, "未处理", "文件名已经正确，无需修改"⟩] } ∧
    processFile df fmt fault (processFile df fmt fault st f) f =
      { st with results := st.results ++ [⟨f, "未处理", "文件名已经正确，无需修改"⟩,
          ⟨f, "未处理", "文件名已经正确，无需修改"⟩] } := by
  have hc : (sn == "" || sid == "") = false := by
    rw [beq_eq_false_iff_ne.mpr hsn, beq_eq_false_iff_ne.mpr hsid]
    rfl
  have key : ∀ st' : BatchState, f ∈ st'.existing →
      processFile df fmt fault st' f =
        { st' with results := st'.results ++ [⟨f, "未处理", "文件名已经正确，无需修改"⟩] } := by
    intro st' hmem'
    have hcont : st'.existing.contains (targetName sid sn fmt (pathSuffix f)) = true := by
      rw [heq]
      exact contains_iff_mem.mpr hmem'
    have hb1 : (st'.existing.contains (targetName sid sn fmt (pathSuffix f)) &&
        (targetName sid sn fmt (pathSuffix f) != f)) = false := by
      rw [hcont, heq, bne_self_eq_false, Bool.and_false]
    have hb2 : (st'.existing.contains (targetName sid sn fmt (pathSuffix f)) &&
        (targetName sid sn fmt (pathSuffix f) == f)) = true := by
      rw [hcont, heq, beq_self_eq_true, Bool.and_true]
    unfold processFile
    simp only [hx, hm]
    rw [if_neg (show ¬((sn == "" || sid == "") = true) by rw [hc]; exact Bool.false_ne_true)]
    rw [if_neg (show ¬_ by rw [hb1]; exact Bool.false_ne_true)]
    rw [if_pos hb2]
    rfl
  have h1 := key st hmem
  have h2 := key { st with results := st.results ++ [⟨f, "未处理", "文件名已经正确，无需修改"⟩] } hmem
  refine ⟨h1, ?_⟩
  rw [h1, h2]
  simp

/-- C8 witness: a file that already carries its correct normalized name. -/
theorem C8_already_correct_idempotent_witness :
    processFile [⟨"王小明", "202441050610"⟩] "实验九" (fun _ => none)
        ⟨["202441050610 王小明 实验（训）报告【电子版】-实验九.docx"], [], 0⟩
        "202441050610 王小明 实验（训）报告【电子版】-实验九.docx" =
      { existing := ["202441050610 王小明 实验（训）报告【电子版】-实验九.docx"],
        results := [⟨"202441050610 王小明 实验（训）报告【电子版】-实验九.docx", "未处理",
          "文件名已经正确，无需修改"⟩],
        success_count := 0 } ∧
    processFile [⟨"王小明", "202441050610"⟩] "实验九" (fun _ => none)
        (processFile [⟨"王小明", "202441050610"⟩] "实验九" (fun _ => none)
          ⟨["202441050610 王小明 实验（训）报告【电子版】-实验九.docx"], [], 0⟩
          "202441050610 王小明 实验（训）报告【电子版】-实验九.docx")
        "202441050610 王小明 实验（训）报告【电子版】-实验九.docx" =
      { existing := ["202441050610 王小明 实验（训）报告【电子版】-实验九.docx"],
        results := [⟨"202441050610 王小明 实验（训）报告【电子版】-实验九.docx", "未处理",
            "文件名已经正确，无需修改"⟩,
          ⟨"202441050610 王小明 实验（训）报告【电子版】-实验九.docx", "未处理",
            "文件名已经正确，无需修改"⟩],
        success_count := 0 } :=
  C8_already_correct_idempotent [⟨"王小明", "202441050610"⟩] "实验九" (fun _ => none)
    ⟨["202441050610 王小明 实验（训）报告【电子版】-实验九.docx"], [], 0⟩
    "202441050610 王小明 实验（训）报告【电子版】-实验九.docx" "王小明" "王小明" "202441050610"
    rfl rfl (by decide) (by decide) rfl (by decide)

/-! ### Collision counters: the numbered names are pairwise distinct, and the
collision loop picks the first free one -/

theorem digitChar_toNat (m : Nat) (h : m < 10) : (Nat.digitChar m).toNat = m + 48 := by
  interval_cases m <;> rfl

theorem digitChar_isPyDigit (m : Nat) (h : m < 10) : isPyDigit (Nat.digitChar m) = true := by
  interval_cases m <;> rfl

/-- The decimal value of a digit string (inverse of `natReprAux`). -/
def digitsVal (l : List Char) : Nat := l.foldl (fun a c => a * 10 + (c.toNat - 48)) 0

theorem foldlDigits_append (l : List Char) (c : Char) (a : Nat) :
    (l ++ [c]).foldl (fun a c => a * 10 + (c.toNat - 48)) a =
      (l.foldl (fun a c => a * 10 + (c.toNat - 48)) a) * 10 + (c.toNat - 48) := by
  rw [List.foldl_append]
  rfl

theorem digitsVal_natReprAux : ∀ fuel n, n < fuel → digitsVal (natReprAux fuel n) = n := by
  intro fuel
  induction fuel with
  | zero => intro n h; omega
  | succ fuel ih =>
    intro n h
    unfold natReprAux
    by_cases h10 : n < 10
    · rw [if_pos h10]
      show 0 * 10 + ((Nat.digitChar n).toNat - 48) = n
      rw [digitChar_toNat n h10]
      omega
    · rw [if_neg h10]
      show digitsVal (natReprAux fuel (n / 10) ++ [Nat.digitChar (n % 10)]) = n
      unfold digitsVal
      rw [foldlDigits_append]
      have hih := ih (n / 10) (by omega)
      unfold digitsVal at hih
      rw [hih, digitChar_toNat (n % 10) (by omega)]
      omega

theorem natRepr_inj {a b : Nat} (h : natRepr a = natRepr b) : a = b := by
  have hd : natReprAux (a + 1) a = natReprAux (b + 1) b := congrArg String.data h
  have ha := digitsVal_natReprAux (a + 1) a (by omega)
  have hb := digitsVal_natReprAux (b + 1) b (by omega)
  rw [hd, hb] at ha
  exact ha.symm

theorem natReprAux_digits : ∀ fuel n, (natReprAux fuel n).all isPyDigit = true := by
  intro fuel
  induction fuel with
  | zero => intro n; rfl
  | succ fuel ih =>
    intro n
    unfold natReprAux
    by_cases h10 : n < 10
    · rw [if_pos h10]
      simp [digitChar_isPyDigit n h10]
    · rw [if_neg h10]
      rw [List.all_append]
      simp [ih (n / 10), digitChar_isPyDigit (n % 10) (by omega)]

theorem cleanChar_eq_of_digit (c : Char) (h : isPyDigit c = true) : cleanChar c = c := by
  unfold cleanChar
  rw [if_neg]
  intro hc
  have hmem := contains_iff_mem.mp hc
  fin_cases hmem <;> exact absurd h (by decide)

theorem map_cleanChar_digits (l : List Char) (h : l.all isPyDigit = true) :
    l.map cleanChar = l := by
  induction l with
  | nil => rfl
  | cons x xs ih =>
    rw [List.all_cons, Bool.and_eq_true] at h
    rw [List.map_cons, cleanChar_eq_of_digit x h.1, ih h.2]

theorem dropWhile_append_cons {α : Type} {p : α → Bool} (M : List α) (c : α) (rest : List α)
    (hc : p c = false) :
    (M ++ c :: rest).dropWhile p = M.dropWhile p ++ c :: rest := by
  induction M with
  | nil =>
    rw [List.nil_append, List.dropWhile_nil, List.nil_append, List.dropWhile_cons, hc]
    rfl
  | cons x xs ih =>
    rw [List.cons_append, List.dropWhile_cons, List.dropWhile_cons]
    by_cases hx : p x = true
    · rw [hx]
      simpa using ih
    · rw [Bool.eq_false_iff.mpr hx]
      simp

theorem trimList_concat (l : List Char) (c : Char) (hc : isPySpace c = false) :
    trimList (l ++ [c]) = l.dropWhile isPySpace ++ [c] := by
  unfold trimList
  rw [dropWhile_append_cons l c [] hc]
  rw [List.reverse_append]
  rw [show ([c] : List Char).reverse = [c] from rfl]
  rw [List.singleton_append, List.dropWhile_cons, hc]
  rw [show (if false = true then (l.dropWhile isPySpace).reverse.dropWhile isPySpace
    else c :: (l.dropWhile isPySpace).reverse) = c :: (l.dropWhile isPySpace).reverse from rfl]
  rw [List.reverse_cons, List.reverse_reverse]

/-- The numbered collision name, split at its counter digits. -/
theorem numberedName_eq_aux (B suffix : String) (k : Nat) :
    (clean_filename (B ++ "(" ++ natRepr k ++ ")") ++ suffix).data =
      ((B.data.map cleanChar).dropWhile isPySpace ++ ['(']) ++
        ((natRepr k).data ++ (')' :: suffix.data)) := by
  unfold clean_filename pyStrip
  rw [strData_append]
  rw [show (B ++ "(" ++ natRepr k ++ ")").data = (B.data ++ '(' :: (natRepr k).data) ++ [')']
    from by simp [strData_append, List.append_assoc, show ("(" : String).data = ['('] from rfl,
      show (")" : String).data = [')'] from rfl]]
  rw [List.map_append]
  rw [show List.map cleanChar [')'] = [')'] from rfl]
  rw [trimList_concat _ ')' rfl]
  rw [List.map_append]
  rw [show List.map cleanChar ('(' :: (natRepr k).data) =
    '(' :: List.map cleanChar (natRepr k).data from rfl]
  rw [map_cleanChar_digits (natRepr k).data (natReprAux_digits (k + 1) k)]
  rw [dropWhile_append_cons _ '(' _ rfl]
  simp [List.append_assoc]

theorem numberedName_decomp (sid sn fmt suffix : String) (k : Nat) :
    (numberedName sid sn fmt suffix k).data =
      (((sid ++ " " ++ sn ++ " 实验（训）报告【电子版】-" ++ fmt).data.map
          cleanChar).dropWhile isPySpace ++ ['(']) ++
        ((natRepr k).data ++ (')' :: suffix.data)) :=
  numberedName_eq_aux (sid ++ " " ++ sn ++ " 实验（训）报告【电子版】-" ++ fmt) suffix k

theorem numberedName_inj (sid sn fmt suffix : String) (k1 k2 : Nat)
    (h : numberedName sid sn fmt suffix k1 = numberedName sid sn fmt suffix k2) : k1 = k2 := by
  have hd := congrArg String.data h
  rw [numberedName_decomp, numberedName_decomp] at hd
  have h2 := List.append_cancel_left hd
  have h3 := List.append_cancel_right h2
  have h4 : natRepr k1 = natRepr k2 := by
    cases hr1 : natRepr k1 with
    | mk d1 =>
      cases hr2 : natRepr k2 with
      | mk d2 =>
        rw [hr1, hr2] at h3
        rw [show (String.mk d1).data = d1 from rfl, show (String.mk d2).data = d2 from rfl] at h3
        rw [h3]
  exact natRepr_inj h4

theorem findFreeAux_eq (existing : List String) (mk : Nat → String) (k : Nat) :
    ∀ (fuel start : Nat), start ≤ k → k < start + fuel →
      (∀ j, start ≤ j → j < k → mk j ∈ existing) → mk k ∉ existing →
      findFreeAux existing mk start fuel = mk k := by
  intro fuel
  induction fuel with
  | zero => intro start h1 h2 _ _; omega
  | succ fuel ih =>
    intro start h1 h2 hbef hfree
    unfold findFreeAux
    by_cases hs : start = k
    · subst hs
      rw [contains_eq_false_of_not_mem hfree]
      rfl
    · have hmem : mk start ∈ existing := hbef start (Nat.le_refl start) (by omega)
      rw [contains_iff_mem.mpr hmem]
      show findFreeAux existing mk (start + 1) fuel = mk k
      exact ih (start + 1) (by omega) (by omega) (fun j hj1 hj2 => hbef j (by omega) hj2) hfree

/-- If the first `k - 1` numbered names are all in use, `k` cannot exceed the
number of used names plus one (the names are pairwise distinct). -/
theorem first_free_bound (existing : List String) (mk : Nat → String)
    (hinj : ∀ i j, mk i = mk j → i = j) (k : Nat) (hk : 1 ≤ k)
    (hbef : ∀ j, 1 ≤ j → j < k → mk j ∈ existing) : k ≤ existing.length + 1 := by
  by_contra hcon
  push_neg at hcon
  have hsub : (Finset.Ico 1 k).image mk ⊆ existing.toFinset := by
    intro x hx
    rw [Finset.mem_image] at hx
    obtain ⟨j, hj, rfl⟩ := hx
    rw [Finset.mem_Ico] at hj
    rw [List.mem_toFinset]
    exact hbef j hj.1 hj.2
  have hcard : ((Finset.Ico 1 k).image mk).card = k - 1 := by
    rw [Finset.card_image_of_injOn (fun i _ j _ h => hinj i j h), Nat.card_Ico]
  have hle1 := Finset.card_le_card hsub
  have hle2 := List.toFinset_card_le existing
  omega

/-- The collision loop returns the first free numbered name. -/
theorem numberedResolve_eq (existing : List String) (sid sn fmt suffix : String) (k : Nat)
    (hk : 1 ≤ k)
    (hbef : ∀ j, 1 ≤ j → j < k → numberedName sid sn fmt suffix j ∈ existing)
    (hfree : numberedName sid sn fmt suffix k ∉ existing) :
    numberedResolve existing sid sn fmt suffix = numberedName sid sn fmt suffix k := by
  have hb := first_free_bound existing (numberedName sid sn fmt suffix)
    (fun i j h => numberedName_inj sid sn fmt suffix i j h) k hk hbef
  exact findFreeAux_eq existing (numberedName sid sn fmt suffix) k (existing.length + 1) 1 hk
    (by omega) hbef hfree

/-! ### Claim C4: bracketed-suffix collision resolution -/

/-- C4: when the sanitized target name is already in use and does not refer
to the file being renamed, the planner appends `(1)`, `(2)`, … before the
extension, incrementing until an unused name is found: if the names numbered
`1 … k-1` are taken and `(k)` is free, the file is renamed to the `(k)` name,
which did not previously exist — no existing file is overwritten. -/
theorem C4_collision_suffix (df : List StudentRecord) (fmt : String)
    (fault : String → Option String) (st : BatchState) (f n sn sid : String) (k : Nat)
    (hx : extract_name_from_filename f = some n)
    (hm : find_student_info n df = some (sn, sid))
    (hsn : sn ≠ "") (hsid : sid ≠ "")
    (hfa : fault f = none)
    (hmem : targetName sid sn fmt (pathSuffix f) ∈ st.existing)
    (hne : targetName sid sn fmt (pathSuffix f) ≠ f)
    (hk : 1 ≤ k)
    (hbef : ∀ j, 1 ≤ j → j < k → numberedName sid sn fmt (pathSuffix f) j ∈ st.existing)
    (hfree : numberedName sid sn fmt (pathSuffix f) k ∉ st.existing) :
    processFile df fmt fault st f =
      { existing := st.existing.erase f ++ [numberedName sid sn fmt (pathSuffix f) k],
        results := st.results ++ [⟨f, numberedName sid sn fmt (pathSuffix f) k, "成功"⟩],
        success_count := st.success_count + 1 } ∧
      numberedName sid sn fmt (pathSuffix f) k ∉ st.existing := by
  have hc : (sn == "" || sid == "") = false := by
    rw [beq_eq_false_iff_ne.mpr hsn, beq_eq_false_iff_ne.mpr hsid]
    rfl
  have hcond : (st.existing.contains (targetName sid sn fmt (pathSuffix f)) &&
      (targetName sid sn fmt (pathSuffix f) != f)) = true := by
    rw [contains_iff_mem.mpr hmem, bne_iff_ne.mpr hne]
    rfl
  have hres := numberedResolve_eq st.existing sid sn fmt (pathSuffix f) k hk hbef hfree
  refine ⟨?_, hfree⟩
  unfold processFile
  simp only [hx, hm]
  rw [if_neg (show ¬((sn == "" || sid == "") = true) by rw [hc]; exact Bool.false_ne_true)]
  rw [if_pos hcond]
  rw [hres]
  unfold attemptRename
  rw [hfa]

/-- C4 witness: with the base target and its `(1)` variant taken by other
files, the third source file gets the `(2)` suffix and no name in use is
overwritten. -/
theorem C4_collision_suffix_witness :
    processFile [⟨"王小明", "202441050610"⟩] "实验九" (fun _ => none)
        ⟨["王小明2.docx",
          "202441050610 王小明 实验（训）报告【电子版】-实验九.docx",
          "202441050610 王小明 实验（训）报告【电子版】-实验九(1).docx"], [], 0⟩ "王小明2.docx" =
      { existing := ["202441050610 王小明 实验（训）报告【电子版】-实验九.docx",
          "202441050610 王小明 实验（训）报告【电子版】-实验九(1).docx",
          "202441050610 王小明 实验（训）报告【电子版】-实验九(2).docx"],
        results := [⟨"王小明2.docx",
          "202441050610 王小明 实验（训）报告【电子版】-实验九(2).docx", "成功"⟩],
        success_count := 1 } ∧
    ("202441050610 王小明 实验（训）报告【电子版】-实验九(2).docx" : String) ∉
      (["王小明2.docx", "202441050610 王小明 实验（训）报告【电子版】-实验九.docx",
        "202441050610 王小明 实验（训）报告【电子版】-实验九(1).docx"] : List String) := by
  have h := C4_collision_suffix [⟨"王小明", "202441050610"⟩] "实验九" (fun _ => none)
    ⟨["王小明2.docx",
      "202441050610 王小明 实验（训）报告【电子版】-实验九.docx",
      "202441050610 王小明 实验（训）报告【电子版】-实验九(1).docx"], [], 0⟩ "王小明2.docx"
    "王小明" "王小明" "202441050610" 2 rfl rfl (by decide) (by decide) rfl (by decide)
    (by decide) (by omega)
    (fun j h1 h2 => by
      have hj : j = 1 := by omega
      subst hj
      decide)
    (by decide)
  exact ⟨h.1, h.2⟩

/-! ### What the extraction patterns can capture

Every capture group in patterns 1-7 is a character class repetition excluding
whitespace and digits, and the fallback pattern matches CJK runs only.  The
two predicates below propagate these facts through the engine. -/

/-- Matching `re` can only consume characters satisfying `p` (lookaheads
consume nothing). -/
inductive ConsumesOnly (p : Char → Bool) : Re → Prop
  | eps : ConsumesOnly p .eps
  | cls (q : Char → Bool) (h : ∀ c, q c = true → p c = true) : ConsumesOnly p (.cls q)
  | seq (a b : Re) (ha : ConsumesOnly p a) (hb : ConsumesOnly p b) : ConsumesOnly p (.seq a b)
  | alt (a b : Re) (ha : ConsumesOnly p a) (hb : ConsumesOnly p b) : ConsumesOnly p (.alt a b)
  | star (r : Re) (lz : Bool) (hr : ConsumesOnly p r) : ConsumesOnly p (.star r lz)
  | group (r : Re) (hr : ConsumesOnly p r) : ConsumesOnly p (.group r)
  | look (r : Re) : ConsumesOnly p (.look r)

/-- The capture group of `re` can only hold characters satisfying `p`. -/
inductive CapturesOnly (p : Char → Bool) : Re → Prop
  | eps : CapturesOnly p .eps
  | cls (q : Char → Bool) : CapturesOnly p (.cls q)
  | seq (a b : Re) (ha : CapturesOnly p a) (hb : CapturesOnly p b) : CapturesOnly p (.seq a b)
  | alt (a b : Re) (ha : CapturesOnly p a) (hb : CapturesOnly p b) : CapturesOnly p (.alt a b)
  | star (r : Re) (lz : Bool) (hr : CapturesOnly p r) : CapturesOnly p (.star r lz)
  | group (r : Re) (hr : ConsumesOnly p r) : CapturesOnly p (.group r)
  | look (r : Re) : CapturesOnly p (.look r)

/-- Every match of a `ConsumesOnly p` regex consumes a prefix of characters
satisfying `p`. -/
theorem mresF_consumes {p : Char → Bool} :
    ∀ (fuel : Nat) (re : Re) (s : List Char), ConsumesOnly p re →
      ∀ x ∈ mresF fuel re s, ∃ pre, s = pre ++ x.1 ∧ pre.all p = true := by
  intro fuel
  induction fuel with
  | zero =>
    intro re s _ x hx
    simp [mresF] at hx
  | succ fuel ih =>
    intro re s hre x hx
    cases hre with
    | eps =>
      rw [show mresF (fuel + 1) .eps s = [(s, none)] from rfl, List.mem_singleton] at hx
      exact ⟨[], by rw [hx]; rfl, rfl⟩
    | cls q hq =>
      cases s with
      | nil => simp [mresF] at hx
      | cons c rest =>
        rw [show mresF (fuel + 1) (.cls q) (c :: rest) =
          (if q c then [(rest, none)] else []) from rfl] at hx
        by_cases hqc : q c = true
        · rw [if_pos hqc, List.mem_singleton] at hx
          refine ⟨[c], by rw [hx]; rfl, ?_⟩
          simp [hq c hqc]
        · rw [if_neg hqc] at hx
          simp at hx
    | seq a b ha hb =>
      rw [show mresF (fuel + 1) (.seq a b) s = (mresF fuel a s).flatMap (fun pa =>
        (mresF fuel b pa.1).map (fun pb => (pb.1, pa.2 <|> pb.2))) from rfl] at hx
      rw [List.mem_flatMap] at hx
      obtain ⟨pa, hpa, hx⟩ := hx
      rw [List.mem_map] at hx
      obtain ⟨pb, hpb, rfl⟩ := hx
      obtain ⟨pre1, he1, hall1⟩ := ih a s ha pa hpa
      obtain ⟨pre2, he2, hall2⟩ := ih b pa.1 hb pb hpb
      refine ⟨pre1 ++ pre2, ?_, ?_⟩
      · rw [he1, he2, List.append_assoc]
      · rw [List.all_append, hall1, hall2]
        rfl
    | alt a b ha hb =>
      rw [show mresF (fuel + 1) (.alt a b) s = mresF fuel a s ++ mresF fuel b s from rfl,
        List.mem_append] at hx
      rcases hx with hx | hx
      · exact ih a s ha x hx
      · exact ih b s hb x hx
    | star r lz hr =>
      rw [show mresF (fuel + 1) (.star r lz) s =
        (if lz then (s, none) :: ((mresF fuel r s).filter
            (fun pa => pa.1.length < s.length)).flatMap (fun pa =>
            (mresF fuel (.star r lz) pa.1).map (fun pb => (pb.1, pa.2 <|> pb.2)))
          else ((mresF fuel r s).filter (fun pa => pa.1.length < s.length)).flatMap (fun pa =>
            (mresF fuel (.star r lz) pa.1).map (fun pb => (pb.1, pa.2 <|> pb.2))) ++
            [(s, none)]) from by cases lz <;> rfl] at hx
      have hiter : x ∈ ((mresF fuel r s).filter
          (fun pa => pa.1.length < s.length)).flatMap (fun pa =>
          (mresF fuel (.star r lz) pa.1).map (fun pb => (pb.1, pa.2 <|> pb.2))) →
          ∃ pre, s = pre ++ x.1 ∧ pre.all p = true := by
        intro hmem
        rw [List.mem_flatMap] at hmem
        obtain ⟨pa, hpa, hmem⟩ := hmem
        rw [List.mem_filter] at hpa
        rw [List.mem_map] at hmem
        obtain ⟨pb, hpb, rfl⟩ := hmem
        obtain ⟨pre1, he1, hall1⟩ := ih r s hr pa hpa.1
        obtain ⟨pre2, he2, hall2⟩ := ih (.star r lz) pa.1 (ConsumesOnly.star r lz hr) pb hpb
        refine ⟨pre1 ++ pre2, ?_, ?_⟩
        · rw [he1, he2, List.append_assoc]
        · rw [List.all_append, hall1, hall2]
          rfl
      by_cases hlz : lz = true
      · rw [if_pos hlz, List.mem_cons] at hx
        rcases hx with hx | hx
        · exact ⟨[], by rw [hx]; rfl, rfl⟩
        · exact hiter hx
      · rw [if_neg hlz, List.mem_append] at hx
        rcases hx with hx | hx
        · exact hiter hx
        · rw [List.mem_singleton] at hx
          exact ⟨[], by rw [hx]; rfl, rfl⟩
    | group r hr =>
      rw [show mresF (fuel + 1) (.group r) s = (mresF fuel r s).map
        (fun pa => (pa.1, some (s.take (s.length - pa.1.length)))) from rfl,
        List.mem_map] at hx
      obtain ⟨pa, hpa, rfl⟩ := hx
      exact ih r s hr pa hpa
    | look r =>
      rw [show mresF (fuel + 1) (.look r) s =
        (if (mresF fuel r s).isEmpty then [] else [(s, none)]) from rfl] at hx
      by_cases hemp : (mresF fuel r s).isEmpty = true
      · rw [if_pos hemp] at hx
        simp at hx
      · rw [if_neg hemp, List.mem_singleton] at hx
        exact ⟨[], by rw [hx]; rfl, rfl⟩

/-- Every capture produced by a `CapturesOnly p` regex holds only characters
satisfying `p`. -/
theorem mresF_captures {p : Char → Bool} :
    ∀ (fuel : Nat) (re : Re) (s : List Char), CapturesOnly p re →
      ∀ x ∈ mresF fuel re s, ∀ cap, x.2 = some cap → cap.all p = true := by
  intro fuel
  induction fuel with
  | zero =>
    intro re s _ x hx
    simp [mresF] at hx
  | succ fuel ih =>
    intro re s hre x hx cap hcap
    cases hre with
    | eps =>
      rw [show mresF (fuel + 1) .eps s = [(s, none)] from rfl, List.mem_singleton] at hx
      rw [hx] at hcap
      exact absurd hcap (by simp)
    | cls q =>
      cases s with
      | nil => simp [mresF] at hx
      | cons c rest =>
        rw [show mresF (fuel + 1) (.cls q) (c :: rest) =
          (if q c then [(rest, none)] else []) from rfl] at hx
        by_cases hqc : q c = true
        · rw [if_pos hqc, List.mem_singleton] at hx
          rw [hx] at hcap
          exact absurd hcap (by simp)
        · rw [if_neg hqc] at hx
          simp at hx
    | seq a b ha hb =>
      rw [show mresF (fuel + 1) (.seq a b) s = (mresF fuel a s).flatMap (fun pa =>
        (mresF fuel b pa.1).map (fun pb => (pb.1, pa.2 <|> pb.2))) from rfl] at hx
      rw [List.mem_flatMap] at hx
      obtain ⟨pa, hpa, hx⟩ := hx
      rw [List.mem_map] at hx
      obtain ⟨pb, hpb, rfl⟩ := hx
      cases hpa2 : pa.2 with
      | some c1 =>
        rw [hpa2] at hcap
        rw [show (some c1 <|> pb.2) = some c1 from rfl] at hcap
        injection hcap with h1
        rw [← h1]
        exact ih a s ha pa hpa c1 hpa2
      | none =>
        rw [hpa2] at hcap
        rw [show (none <|> pb.2) = pb.2 from rfl] at hcap
        exact ih b pa.1 hb pb hpb cap hcap
    | alt a b ha hb =>
      rw [show mresF (fuel + 1) (.alt a b) s = mresF fuel a s ++ mresF fuel b s from rfl,
        List.mem_append] at hx
      rcases hx with hx | hx
      · exact ih a s ha x hx cap hcap
      · exact ih b s hb x hx cap hcap
    | star r lz hr =>
      rw [show mresF (fuel + 1) (.star r lz) s =
        (if lz then (s, none) :: ((mresF fuel r s).filter
            (fun pa => pa.1.length < s.length)).flatMap (fun pa =>
            (mresF fuel (.star r lz) pa.1).map (fun pb => (pb.1, pa.2 <|> pb.2)))
          else ((mresF fuel r s).filter (fun pa => pa.1.length < s.length)).flatMap (fun pa =>
            (mresF fuel (.star r lz) pa.1).map (fun pb => (pb.1, pa.2 <|> pb.2))) ++
            [(s, none)]) from by cases lz <;> rfl] at hx
      have hiter : x ∈ ((mresF fuel r s).filter
          (fun pa => pa.1.length < s.length)).flatMap (fun pa =>
          (mresF fuel (.star r lz) pa.1).map (fun pb => (pb.1, pa.2 <|> pb.2))) →
          cap.all p = true := by
        intro hmem
        rw [List.mem_flatMap] at hmem
        obtain ⟨pa, hpa, hmem⟩ := hmem
        rw [List.mem_filter] at hpa
        rw [List.mem_map] at hmem
        obtain ⟨pb, hpb, heq⟩ := hmem
        rw [← heq] at hcap
        cases hpa2 : pa.2 with
        | some c1 =>
          rw [hpa2] at hcap
          rw [show (some c1 <|> pb.2) = some c1 from rfl] at hcap
          injection hcap with h1
          rw [← h1]
          exact ih r s hr pa hpa.1 c1 hpa2
        | none =>
          rw [hpa2] at hcap
          rw [show (none <|> pb.2) = pb.2 from rfl] at hcap
          exact ih (.star r lz) pa.1 (CapturesOnly.star r lz hr) pb hpb cap hcap
      by_cases hlz : lz = true
      · rw [if_pos hlz, List.mem_cons] at hx
        rcases hx with hx | hx
        · rw [hx] at hcap
          exact absurd hcap (by simp)
        · exact hiter hx
      · rw [if_neg hlz, List.mem_append] at hx
        rcases hx with hx | hx
        · exact hiter hx
        · rw [List.mem_singleton] at hx
          rw [hx] at hcap
          exact absurd hcap (by simp)
    | group r hr =>
      rw [show mresF (fuel + 1) (.group r) s = (mresF fuel r s).map
        (fun pa => (pa.1, some (s.take (s.length - pa.1.length)))) from rfl,
        List.mem_map] at hx
      obtain ⟨pa, hpa, rfl⟩ := hx
      injection hcap with h1
      obtain ⟨pre, hpre, hall⟩ := mresF_consumes fuel r s hr pa hpa
      have hlen : s.length - pa.1.length = pre.length := by
        rw [hpre, List.length_append]
        omega
      rw [← h1, hlen, hpre, List.take_left]
      exact hall
    | look r =>
      rw [show mresF (fuel + 1) (.look r) s =
        (if (mresF fuel r s).isEmpty then [] else [(s, none)]) from rfl] at hx
      by_cases hemp : (mresF fuel r s).isEmpty = true
      · rw [if_pos hemp] at hx
        simp at hx
      · rw [if_neg hemp, List.mem_singleton] at hx
        rw [hx] at hcap
        exact absurd hcap (by simp)

theorem mem_matchHere (re : Re) (s : List Char) (x : List Char × Option (List Char))
    (h : matchHere re s = some x) : x ∈ mresF (reFuel s) re s := by
  unfold matchHere at h
  cases hl : mresF (reFuel s) re s with
  | nil =>
    rw [hl] at h
    exact absurd h (by simp)
  | cons y ys =>
    rw [hl] at h
    rw [show (y :: ys).head? = some y from rfl] at h
    injection h with h1
    rw [← h1]
    exact List.mem_cons_self y ys

/-- The value `findall` emits for one match satisfies `p` — via the capture
bound when the pattern has a group, via the consumption bound otherwise. -/
theorem emitted_all {p : Char → Bool} (re : Re) (hg : Bool) (s rest : List Char)
    (cap : Option (List Char)) (hcap : CapturesOnly p re)
    (hcons : hg = false → ConsumesOnly p re)
    (hm : matchHere re s = some (rest, cap)) :
    (if hg = true then cap.getD [] else s.take (s.length - rest.length)).all p = true := by
  have hx := mem_matchHere re s (rest, cap) hm
  cases hg with
  | true =>
    rw [if_pos rfl]
    cases cap with
    | none => rfl
    | some c1 => exact mresF_captures (reFuel s) re s hcap (rest, some c1) hx c1 rfl
  | false =>
    rw [if_neg (by simp)]
    obtain ⟨pre, hpre, hall⟩ := mresF_consumes (reFuel s) re s (hcons rfl) (rest, cap) hx
    have hpre2 : s = pre ++ rest := hpre
    have hlen : s.length - rest.length = pre.length := by
      rw [hpre2, List.length_append]
      omega
    rw [hlen, hpre2, List.take_left]
    exact hall

theorem findallAux_all {p : Char → Bool} (re : Re) (hg : Bool)
    (hcap : CapturesOnly p re) (hcons : hg = false → ConsumesOnly p re) :
    ∀ fuel s e, e ∈ findallAux re hg fuel s → e.all p = true := by
  intro fuel
  induction fuel with
  | zero =>
    intro s e he
    simp [findallAux] at he
  | succ fuel ih =>
    intro s e he
    unfold findallAux findallStep at he
    cases hm : matchHere re s with
    | none =>
      simp only [hm] at he
      cases s with
      | nil => simp at he
      | cons c t => exact ih t e he
    | some pr =>
      obtain ⟨rest, cap⟩ := pr
      simp only [hm] at he
      have hemit := emitted_all re hg s rest cap hcap hcons hm
      by_cases hz : s.length - rest.length = 0
      · rw [if_pos hz] at he
        cases s with
        | nil =>
          rw [List.mem_singleton] at he
          rw [he]
          exact hemit
        | cons c t =>
          rw [List.mem_cons] at he
          rcases he with he | he
          · rw [he]
            exact hemit
          · exact ih t e he
      · rw [if_neg hz] at he
        rw [List.mem_cons] at he
        rcases he with he | he
        · rw [he]
          exact hemit
        · exact ih rest e he

theorem pyFindall_all {p : Char → Bool} (anch : Bool) (re : Re) (hg : Bool)
    (hcap : CapturesOnly p re) (hcons : hg = false → ConsumesOnly p re) :
    ∀ s e, e ∈ pyFindall anch re hg s → e.all p = true := by
  intro s e he
  unfold pyFindall at he
  by_cases ha : anch = true
  · rw [if_pos ha] at he
    cases hm : matchHere re s with
    | none =>
      simp only [hm] at he
      simp at he
    | some pr =>
      obtain ⟨rest, cap⟩ := pr
      simp only [hm] at he
      rw [List.mem_singleton] at he
      rw [he]
      exact emitted_all re hg s rest cap hcap hcons hm
  · rw [if_neg ha] at he
    exact findallAux_all re hg hcap hcons (s.length + 1) s e he

/-! The capture classes of the seven patterns all lie inside `[^\s\d]`. -/

theorem consumesOnly_plusRe {p : Char → Bool} {r : Re} (h : ConsumesOnly p r) :
    ConsumesOnly p (plusRe r) :=
  .seq _ _ h (.star _ _ h)

theorem consumesOnly_optRe {p : Char → Bool} {r : Re} (h : ConsumesOnly p r) :
    ConsumesOnly p (optRe r) :=
  .alt _ _ h .eps

theorem consumesOnly_rep24 {p : Char → Bool} {r : Re} (h : ConsumesOnly p r) :
    ConsumesOnly p (rep24 r) :=
  .seq _ _ h (.seq _ _ h (consumesOnly_optRe (.seq _ _ h (consumesOnly_optRe h))))

theorem capturesOnly_plusRe {p : Char → Bool} {r : Re} (h : CapturesOnly p r) :
    CapturesOnly p (plusRe r) :=
  .seq _ _ h (.star _ _ h)

theorem capturesOnly_seqList {p : Char → Bool} :
    ∀ l : List Re, (∀ r ∈ l, CapturesOnly p r) → CapturesOnly p (seqList l) := by
  intro l
  induction l with
  | nil => exact fun _ => .eps
  | cons r rest ih =>
    intro h
    exact .seq _ _ (h r (List.mem_cons_self r rest))
      (ih (fun q hq => h q (List.mem_cons_of_mem r hq)))

theorem notSDplus_imp_notSD : ∀ c, notSDplus c = true → notSD c = true := by
  intro c h
  unfold notSDplus at h
  exact (Bool.and_eq_true _ _).mp h |>.1

theorem capturesOnly_reP1 : CapturesOnly notSD reP1 := by
  unfold reP1
  apply capturesOnly_seqList
  intro r hr
  fin_cases hr
  · exact capturesOnly_plusRe (.cls _)
  · exact capturesOnly_plusRe (.cls _)
  · exact .group _ (consumesOnly_plusRe (.cls _ (fun _ h => h)))
  · exact capturesOnly_plusRe (.cls _)

theorem capturesOnly_reP2 : CapturesOnly notSD reP2 := by
  unfold reP2
  apply capturesOnly_seqList
  intro r hr
  fin_cases hr
  · exact capturesOnly_plusRe (.cls _)
  · exact capturesOnly_plusRe (.cls _)
  · exact .star _ _ (.cls _)
  · exact .group _ (consumesOnly_rep24 (.cls _ (fun _ h => h)))
  · exact .alt _ _ (capturesOnly_plusRe (.cls _)) (.cls _)

theorem capturesOnly_reP3 : CapturesOnly notSD reP3 := by
  unfold reP3
  apply capturesOnly_seqList
  intro r hr
  fin_cases hr
  · exact capturesOnly_plusRe (.cls _)
  · exact capturesOnly_plusRe (.cls _)
  · exact .star _ _ (.cls _)
  · exact .cls _
  · exact capturesOnly_plusRe (.cls _)
  · exact .group _ (consumesOnly_plusRe (.cls _ (fun _ h => h)))
  · exact capturesOnly_plusRe (.cls _)
  · exact capturesOnly_plusRe (.cls _)

theorem capturesOnly_reP4 : CapturesOnly notSD reP4 := by
  unfold reP4
  apply capturesOnly_seqList
  intro r hr
  fin_cases hr
  · exact capturesOnly_plusRe (.cls _)
  · exact .group _ (consumesOnly_rep24 (.cls _ notSDplus_imp_notSD))

theorem capturesOnly_reP5 : CapturesOnly notSD reP5 := by
  unfold reP5
  apply capturesOnly_seqList
  intro r hr
  fin_cases hr
  · exact .group _ (consumesOnly_rep24 (.cls _ (fun _ h => h)))
  · exact .star _ _ (.cls _)
  · exact .alt _ _ (.cls _) .eps
  · exact .star _ _ (.cls _)
  · exact capturesOnly_plusRe (.cls _)

theorem capturesOnly_reP6 : CapturesOnly notSD reP6 := by
  unfold reP6
  apply capturesOnly_seqList
  intro r hr
  fin_cases hr
  · exact .cls _
  · exact .group _ (consumesOnly_rep24 (.cls _ (fun _ h => h)))
  · exact .alt _ _ (capturesOnly_plusRe (.cls _)) (.alt _ _ (.cls _) (.cls _))

theorem capturesOnly_reP7 : CapturesOnly notSD reP7 := by
  unfold reP7
  apply capturesOnly_seqList
  intro r hr
  fin_cases hr
  · exact .group _ (consumesOnly_rep24 (.cls _ (fun _ h => h)))
  · exact .look _

theorem patternDefs_caps : ∀ pr ∈ patternDefs, CapturesOnly notSD pr.2 := by
  intro pr hpr
  fin_cases hpr
  · exact capturesOnly_reP1
  · exact capturesOnly_reP2
  · exact capturesOnly_reP3
  · exact capturesOnly_reP4
  · exact capturesOnly_reP5
  · exact capturesOnly_reP6
  · exact capturesOnly_reP7

theorem consumesOnly_reCJK : ConsumesOnly isCJK reCJK :=
  consumesOnly_rep24 (.cls _ (fun _ h => h))

theorem capturesOnly_reCJK : CapturesOnly isCJK reCJK :=
  .seq _ _ (.cls _) (.seq _ _ (.cls _) (.alt _ _ (.seq _ _ (.cls _) (.alt _ _ (.cls _) .eps)) .eps))

theorem mem_trimList {x : Char} {l : List Char} (h : x ∈ trimList l) : x ∈ l := by
  unfold trimList at h
  rw [List.mem_reverse] at h
  have h2 := (List.dropWhile_sublist isPySpace).subset h
  rw [List.mem_reverse] at h2
  exact (List.dropWhile_sublist isPySpace).subset h2

theorem all_trimList {p : Char → Bool} {l : List Char} (h : l.all p = true) :
    (trimList l).all p = true :=
  List.all_eq_true.mpr (fun x hx => List.all_eq_true.mp h x (mem_trimList hx))

/-- Whatever the first-passing-candidate loop over the patterns returns has
passed `filterOk1` and consists of `[^\s\d]` characters. -/
theorem firstPat_filter (pats : List (Bool × Re)) (np : List Char) (s : String)
    (hcap : ∀ pr ∈ pats, CapturesOnly notSD pr.2)
    (h : firstPat pats np = some s) :
    filterOk1 s = true ∧ s.data.all notSD = true := by
  induction pats with
  | nil => exact absurd h (by simp [firstPat])
  | cons pr rest ih =>
    obtain ⟨anch, re⟩ := pr
    unfold firstPat at h
    cases hfind : ((pyFindall anch re true np).map (fun l => pyStrip ⟨l⟩)).find? filterOk1 with
    | some n =>
      rw [hfind] at h
      injection h with h1
      subst h1
      refine ⟨List.find?_some hfind, ?_⟩
      have hmem := List.mem_of_find?_eq_some hfind
      rw [List.mem_map] at hmem
      obtain ⟨e, he, rfl⟩ := hmem
      have he_all : e.all notSD = true :=
        pyFindall_all anch re true (hcap (anch, re) (List.mem_cons_self _ _))
          (fun hcontra => absurd hcontra (by simp)) np e he
      exact all_trimList he_all
    | none =>
      rw [hfind] at h
      exact ih (fun q hq => hcap q (List.mem_cons_of_mem _ hq)) h

/-- Any name the extractor returns comes out of one of the two filters:
either a pattern-branch candidate (passing `filterOk1`, all `[^\s\d]`) or a
fallback CJK run (passing `filterOk2`, all CJK). -/
theorem extract_cases (f s : String) (h : extract_name_from_filename f = some s) :
    (filterOk1 s = true ∧ s.data.all notSD = true) ∨
    (filterOk2 s = true ∧ s.data.all isCJK = true) := by
  simp only [extract_name_from_filename] at h
  cases hfp : firstPat patternDefs (splitext f).1.data with
  | some n =>
    simp only [hfp] at h
    injection h with h1
    subst h1
    exact Or.inl (firstPat_filter patternDefs (splitext f).1.data n patternDefs_caps hfp)
  | none =>
    simp only [hfp] at h
    right
    refine ⟨List.find?_some h, ?_⟩
    have hmem := List.mem_of_find?_eq_some h
    rw [List.mem_map] at hmem
    obtain ⟨e, he, rfl⟩ := hmem
    exact pyFindall_all false reCJK false capturesOnly_reCJK
      (fun _ => consumesOnly_reCJK) (splitext f).1.data e he

theorem filterOk1_parts {s : String} (h : filterOk1 s = true) :
    2 ≤ s.length ∧ excl1.contains s = false ∧
      stopFrag1.any (fun w => strInfix w s) = false := by
  unfold filterOk1 at h
  rw [Bool.and_eq_true, Bool.and_eq_true, Bool.and_eq_true] at h
  obtain ⟨⟨⟨h1, _⟩, h3⟩, h4⟩ := h
  rw [Bool.not_eq_true'] at h3
  rw [Bool.not_eq_true'] at h4
  exact ⟨of_decide_eq_true h1, h3, h4⟩

theorem filterOk2_parts {s : String} (h : filterOk2 s = true) :
    2 ≤ s.length ∧ excl2.contains s = false ∧
      stopFrag2.any (fun w => strInfix w s) = false := by
  unfold filterOk2 at h
  rw [Bool.and_eq_true, Bool.and_eq_true, Bool.and_eq_true] at h
  obtain ⟨⟨⟨h1, _⟩, h3⟩, h4⟩ := h
  rw [Bool.not_eq_true'] at h3
  rw [Bool.not_eq_true'] at h4
  exact ⟨of_decide_eq_true h1, h3, h4⟩

theorem isCJK_notSD (c : Char) (h : isCJK c = true) : notSD c = true := by
  unfold isCJK at h
  rw [Bool.and_eq_true, decide_eq_true_iff, decide_eq_true_iff] at h
  have hsp : isPySpace c = false := by
    simp only [isPySpace, Bool.or_eq_false_iff, beq_eq_false_iff_ne, ne_eq]
    omega
  have hdg : isPyDigit c = false := by
    simp only [isPyDigit, Bool.and_eq_false_iff, decide_eq_false_iff_not, not_le]
    omega
  unfold notSD
  rw [hsp, hdg]
  rfl

/-- Every extracted name consists of `[^\s\d]` characters only. -/
theorem extract_all_notSD (f s : String) (h : extract_name_from_filename f = some s) :
    s.data.all notSD = true := by
  rcases extract_cases f s h with ⟨_, h2⟩ | ⟨_, h2⟩
  · exact h2
  · exact List.all_eq_true.mpr (fun c hc => isCJK_notSD c (List.all_eq_true.mp h2 c hc))

theorem ne_of_contains_false {l : List String} {s x : String} (h : l.contains s = false)
    (hx : x ∈ l) : s ≠ x := by
  intro heq
  rw [heq] at h
  rw [contains_iff_mem.mpr hx] at h
  exact absurd h (by decide)

/-! ### Claim C10: shape of extracted names -/

/-- C10: whenever the extractor returns a candidate, it has at least two
characters and contains no digit and no whitespace character (`notSD c` is
`[^\s\d]`, i.e. not a digit and not whitespace). -/
theorem C10_extracted_name_shape (f s : String)
    (h : extract_name_from_filename f = some s) :
    2 ≤ s.length ∧ s.data.all notSD = true := by
  rcases extract_cases f s h with ⟨h1, h2⟩ | ⟨h1, _⟩
  · exact ⟨(filterOk1_parts h1).1, h2⟩
  · exact ⟨(filterOk2_parts h1).1, extract_all_notSD f s h⟩

/-- C10 witness: a pattern-branch extraction (name fused between class
metadata and a counter). -/
theorem C10_extracted_name_shape_witness :
    extract_name_from_filename "202441050637 24级计算机工程专升本6班叶梓源37.docx" =
      some "叶梓源" ∧
    2 ≤ ("叶梓源" : String).length ∧ ("叶梓源" : String).data.all notSD = true := by
  refine ⟨rfl, C10_extracted_name_shape "202441050637 24级计算机工程专升本6班叶梓源37.docx"
    "叶梓源" rfl⟩

/-! ### Claim C9: the extractor yields no numeric candidates -/

/-- C9 (amended): the extractor returns at most a single name candidate and
never any numeric run — digit runs serve only as anchors inside the patterns;
no digit string of any length occurs in a returned candidate. -/
theorem C9_no_numeric_candidates (f s d : String)
    (h : extract_name_from_filename f = some s)
    (hd : d.data ≠ []) (hdig : d.data.all isPyDigit = true) :
    strInfix d s = false := by
  cases hin : strInfix d s with
  | false => rfl
  | true =>
    exfalso
    unfold strInfix listInfix at hin
    rw [List.any_eq_true] at hin
    obtain ⟨i, _, hpre⟩ := hin
    rw [List.isPrefixOf_iff_prefix] at hpre
    obtain ⟨c, cs, hdc⟩ : ∃ c cs, d.data = c :: cs := by
      cases hdd : d.data with
      | nil => exact absurd hdd hd
      | cons c cs => exact ⟨c, cs, rfl⟩
    have hcd : c ∈ s.data := by
      have h1 : c ∈ d.data := by
        rw [hdc]
        exact List.mem_cons_self c cs
      exact List.mem_of_mem_drop (hpre.sublist.subset h1)
    have hdigc : isPyDigit c = true := List.all_eq_true.mp hdig c (by
      rw [hdc]
      exact List.mem_cons_self c cs)
    have hnsd := List.all_eq_true.mp (extract_all_notSD f s h) c hcd
    unfold notSD at hnsd
    rw [Bool.and_eq_true, Bool.not_eq_true', Bool.not_eq_true'] at hnsd
    rw [hnsd.2] at hdigc
    exact Bool.false_ne_true hdigc

/-- C9 witness: the 12-digit id run of the input never shows up in the
extracted candidate. -/
theorem C9_no_numeric_candidates_witness :
    extract_name_from_filename "202441050610 王小明.docx" = some "王小明" ∧
    ("202441050610" : String).data ≠ [] ∧
    ("202441050610" : String).data.all isPyDigit = true ∧
    strInfix "202441050610" "王小明" = false :=
  ⟨rfl, by decide, by decide,
    C9_no_numeric_candidates "202441050610 王小明.docx" "王小明" "202441050610" rfl
      (by decide) (by decide)⟩

/-- C9 counterexample: on a filename carrying an id-length numeric run the
extractor's entire output is one name string; the numeric run is not captured
as an ID candidate (nor as a generic number) — there is nothing numeric in
the result at all. -/
theorem C9_counterexample :
    extract_name_from_filename "202441050610 王小明.docx" = some "王小明" ∧
    ("王小明" : String) ≠ "202441050610" ∧
    strInfix "202441050610" "王小明" = false :=
  ⟨rfl, by decide, rfl⟩

/-! ### Claim C5: stop-word filtering -/

/-- C5 (amended): a returned candidate never contains any of the containment
stop-words `级/班/实验/报告/课程/计算机/工程`, and is never exactly `电子版`,
`云计算` or `新版`; containment (as opposed to equality) is only enforced for
that fragment list, not for `电子版`. -/
theorem C5_stop_word_filter (f s : String)
    (h : extract_name_from_filename f = some s) :
    stopFrag2.any (fun w => strInfix w s) = false ∧
    s ≠ "电子版" ∧ s ≠ "云计算" ∧ s ≠ "新版" := by
  rcases extract_cases f s h with ⟨h1, _⟩ | ⟨h1, _⟩
  · obtain ⟨_, hex, hany⟩ := filterOk1_parts h1
    have hall : ∀ w ∈ stopFrag1, strInfix w s = false := by
      intro w hw
      cases hc : strInfix w s with
      | false => rfl
      | true =>
        exfalso
        have : stopFrag1.any (fun w => strInfix w s) = true :=
          List.any_eq_true.mpr ⟨w, hw, hc⟩
        rw [this] at hany
        exact absurd hany (by decide)
    refine ⟨?_, ne_of_contains_false hex (by decide), ne_of_contains_false hex (by decide),
      ne_of_contains_false hex (by decide)⟩
    cases hc2 : stopFrag2.any (fun w => strInfix w s) with
    | false => rfl
    | true =>
      exfalso
      obtain ⟨w, hw2, hcw⟩ := List.any_eq_true.mp hc2
      have hw1 : w ∈ stopFrag1 := by fin_cases hw2 <;> decide
      rw [hall w hw1] at hcw
      exact Bool.false_ne_true hcw
  · obtain ⟨_, hex, hany⟩ := filterOk2_parts h1
    exact ⟨hany, ne_of_contains_false hex (by decide), ne_of_contains_false hex (by decide),
      ne_of_contains_false hex (by decide)⟩

/-- C5 witness. -/
theorem C5_stop_word_filter_witness :
    extract_name_from_filename "202441050610 24级计算机工程专升本6班 肖思进 10.docx" =
      some "肖思进" ∧
    (stopFrag2.any (fun w => strInfix w "肖思进") = false ∧
      ("肖思进" : String) ≠ "电子版" ∧ ("肖思进" : String) ≠ "云计算" ∧
      ("肖思进" : String) ≠ "新版") :=
  ⟨rfl, C5_stop_word_filter "202441050610 24级计算机工程专升本6班 肖思进 10.docx" "肖思进" rfl⟩

/-- C5 counterexample: the candidate `大电子版` wholly contains the stop-word
`电子版` (which sits in both exclusion lists) yet is returned, because `电子版`
is only excluded by exact equality, not containment. -/
theorem C5_counterexample :
    extract_name_from_filename "大电子版.docx" = some "大电子版" ∧
    strInfix "电子版" "大电子版" = true ∧
    "电子版" ∈ excl1 ∧ "电子版" ∈ excl2 :=
  ⟨rfl, rfl, by decide, by decide⟩

end FixMyHomework
